import Mathlib

/-!
Shallow embedding of `src/main.py` (a French/English/Spanish language
detector) for checking the specification's claims.

Modelling conventions:
* A Python `str` is modelled as the list of its character code points
  (`PyStr := List Nat`); `ord`/`chr` are then the identity on codes.
* Python `dict`s are modelled as insertion-ordered association lists with
  unique keys; assignment updates the entry in place (keeping its position)
  or appends a fresh entry at the end, exactly like CPython dicts.
* Numeric scores are modelled over `ℚ`.  The one place where IEEE float
  behaviour matters (numpy's `matrix /= 0` yielding NaN) is modelled
  explicitly with the `FloatVal` type below.
* `re.split('\\s+', text)` is modelled by `resplit`, covering the basic
  whitespace characters (the program's scope is the single-byte range).
-/

abbrev PyStr := List Nat

/-- The language constants `LANG_UNKNOWN = 0`, `LANG_FR = 1`, `LANG_EN = 2`,
`LANG_ES = 3` of `main.py`. -/
inductive Lang : Type
  | unknown
  | fr
  | en
  | es
deriving DecidableEq, Repr

/-- `ALL_LANGS = [LANG_UNKNOWN, LANG_FR, LANG_EN, LANG_ES]`. -/
def ALL_LANGS : List Lang := [Lang.unknown, Lang.fr, Lang.en, Lang.es]

/-- The characters matched by `\s` in `re.split('\s+', text)` (basic range:
space, tab, newline, carriage return, vertical tab, form feed). -/
def isSpace (c : Nat) : Bool :=
  c == 32 || c == 9 || c == 10 || c == 13 || c == 11 || c == 12

/-- Python `str.lower()` on a single code point (ASCII letters; the program
only handles the basic character range). -/
def pyLower (c : Nat) : Nat := if 65 ≤ c ∧ c ≤ 90 then c + 32 else c

/-- One right-to-left step of `resplit`.  The state carries the token list of
the already-processed suffix and whether that suffix starts with a whitespace
character (so that a run of whitespace acts as a single separator). -/
def resplitStep (c : Nat) (st : List PyStr × Bool) : List PyStr × Bool :=
  if isSpace c then
    if st.2 then (st.1, true) else ([] :: st.1, true)
  else
    match st.1 with
    | [] => ([[c]], false)
    | t :: ts => ((c :: t) :: ts, false)

/-- `re.split('\s+', text)`: splits on maximal runs of whitespace.  A leading
or trailing run produces an empty token, and the empty text yields one empty
token, exactly as in Python (`re.split('\s+', '') == ['']`,
`re.split('\s+', ' a ') == ['', 'a', '']`). -/
def resplit (s : PyStr) : List PyStr := (s.foldr resplitStep ([[]], false)).1

/-- Python `file.readlines()` on the file's raw contents: splits after every
newline, keeping the newline at the end of each line. -/
def pyReadlines (content : PyStr) : List PyStr :=
  content.foldr
    (fun c acc =>
      if c = 10 then [c] :: acc
      else
        match acc with
        | [] => [[c]]
        | l :: ls => (c :: l) :: ls)
    []

/-- Helper for `pyStripNL`: remove the trailing run of newline characters. -/
def dropTrailingNL (w : PyStr) : PyStr :=
  (w.reverse.dropWhile (fun c => c == 10)).reverse

/-- Python `str.strip('\n')`: remove leading and trailing newline characters
(and nothing else — spaces, tabs and carriage returns are kept). -/
def pyStripNL (w : PyStr) : PyStr :=
  dropTrailingNL (w.dropWhile (fun c => c == 10))

/-- `load_words_from_file`, factored over the list of physical lines: the
list comprehension keeps a line only when `line_num > 0` (the header line is
skipped) and applies `word.strip('\n').lower()` to each kept line. -/
def load_words_from_lines (lines : List PyStr) : List PyStr :=
  lines.enum.filterMap
    (fun p => if p.1 > 0 then some ((pyStripNL p.2).map pyLower) else none)

/-- `load_words_from_file`: `readlines` on the file contents, then the
header-skipping comprehension. -/
def load_words_from_file (content : PyStr) : List PyStr :=
  load_words_from_lines (pyReadlines content)

/-! ### Python dicts as insertion-ordered association lists -/

/-- `d[k]` lookup / `k in d` (returns the value of the first — and, for a
real Python dict, only — entry with key `k`). -/
def dictLookup {α β : Type} [DecidableEq α] : List (α × β) → α → Option β
  | [], _ => none
  | p :: d, k => if k = p.1 then some p.2 else dictLookup d k

/-- The keys of a dict, in insertion order. -/
def dictKeys {α β : Type} (d : List (α × β)) : List α := d.map Prod.fst

/-- Python `d[k] = v`: overwrite in place if the key exists, else append. -/
def dictSet {α β : Type} [DecidableEq α] : List (α × β) → α → β → List (α × β)
  | [], k, v => [(k, v)]
  | p :: d, k, v => if p.1 = k then (k, v) :: d else p :: dictSet d k v

/-- Python `d[k] += v` on list values, with the `if key in dict_all` guard of
`load_universal_dictionary`: extend the existing list in place, else insert. -/
def dictInsertAdd : List (PyStr × List Lang) → PyStr → List Lang → List (PyStr × List Lang)
  | [], k, v => [(k, v)]
  | p :: d, k, v => if p.1 = k then (p.1, p.2 ++ v) :: d else p :: dictInsertAdd d k v

abbrev UnivDict := List (PyStr × List Lang)

/-- `load_language_dictionary`: `{word: [language] for word in words}`. -/
def load_language_dictionary (words : List PyStr) (language : Lang) : UnivDict :=
  words.foldl (fun d w => dictSet d w [language]) []

/-- The inner merge loop of `load_universal_dictionary`: fold one language
dict into the accumulator, entry by entry. -/
def mergeDict (acc : UnivDict) (dct : UnivDict) : UnivDict :=
  dct.foldl (fun da p => dictInsertAdd da p.1 p.2) acc

/-- `load_universal_dictionary`, parametrised by the
(language, word list) collection that `MAP_LANGUAGE_WORDS` supplies in the
source: build each per-language dict, then merge them all into `dict_all`. -/
def load_universal_dictionary (pairs : List (Lang × List PyStr)) : UnivDict :=
  (pairs.map (fun p => load_language_dictionary p.2 p.1)).foldl mergeDict []

/-! ### Transition matrices -/

/-- `prepare_word_for_transition_check`: `[min(ord(char), 256) for char in word]`. -/
def prepare_word_for_transition_check (word : PyStr) : List Nat :=
  word.map (fun c => min c 256)

/-- The value of a numpy float cell after `matrix /= total_transitions`:
a real number, or NaN (`0.0/0`), or infinity (`x/0` for `x ≠ 0`). -/
inductive FloatVal : Type
  | num (q : ℚ)
  | nan
  | inf
deriving DecidableEq, Repr

/-- numpy elementwise division of a float cell by an integer count. -/
def npDiv (q : ℚ) (t : Nat) : FloatVal :=
  if t = 0 then (if q = 0 then FloatVal.nan else FloatVal.inf) else FloatVal.num (q / t)

/-- `load_transition_matrice`, parametrised by the word list read from the
file: accumulate bigram counts and the total transition count, then divide
every cell by the total — unconditionally, as in the source (`matrix /=
total_transitions` has no zero-total branch). -/
def load_transition_matrice (words : List PyStr) : Nat → Nat → FloatVal :=
  let acc : (Nat → Nat → ℚ) × Nat :=
    words.foldl
      (fun md word =>
        let chars_ords := prepare_word_for_transition_check word
        (List.range (chars_ords.length - 1)).foldl
          (fun md2 k =>
            (fun i j =>
              if i = chars_ords.getD k 0 ∧ j = chars_ords.getD (k + 1) 0 then
                md2.1 i j + 1
              else md2.1 i j,
             md2.2 + 1))
          md)
      (fun _ _ => 0, 0)
  fun i j => npDiv (acc.1 i j) acc.2

/-! ### Scoring -/

/-- Total of a score dict: `sum(score for score in scores.values())`. -/
def scoresTotal (scores : List (Lang × ℚ)) : ℚ := (scores.map Prod.snd).sum

/-- `normalise_scores`: if the total is positive divide every value by it,
otherwise return the scores unchanged. -/
def normalise_scores (scores : List (Lang × ℚ)) : List (Lang × ℚ) :=
  if 0 < scoresTotal scores then
    scores.map (fun p => (p.1, p.2 / scoresTotal scores))
  else scores

/-- `dict_universe.get(word.lower(), [LANG_UNKNOWN])`. -/
def langsOf (dict : UnivDict) (word : PyStr) : List Lang :=
  (dictLookup dict (word.map pyLower)).getD [Lang.unknown]

/-- `scores[language] += 1` (the score dict's keys are the distinct
`ALL_LANGS`, so updating the matching entry is Python's keyed update). -/
def incr (scores : List (Lang × ℚ)) (language : Lang) : List (Lang × ℚ) :=
  scores.map (fun p => if p.1 = language then (p.1, p.2 + 1) else p)

/-- `scores = {lang: 0 for lang in ALL_LANGS}`. -/
def scoresInit : List (Lang × ℚ) := ALL_LANGS.map (fun l => (l, 0))

/-- The token loop of `compute_scores_with_dictionary`: for each token, add 1
to the score of every language in `dict_universe.get(word.lower(),
[LANG_UNKNOWN])`. -/
def scoresFromTokens (dict : UnivDict) (tokens : List PyStr) : List (Lang × ℚ) :=
  tokens.foldl (fun scores word => (langsOf dict word).foldl incr scores) scoresInit

/-- `compute_scores_with_dictionary`, parametrised by the universal
dictionary the source loads from its asset files: tokenize, count, normalise. -/
def compute_scores_with_dictionary (dict : UnivDict) (text : PyStr) : List (Lang × ℚ) :=
  normalise_scores (scoresFromTokens dict (resplit text))

/-- `compute_score_matrix(text, matrix)`: running total of
`matrix[chars_ords[i], chars_ords[i+1]]` over all tokens of the text. -/
def compute_score_matrix (text : PyStr) (matrix : Nat → Nat → ℚ) : ℚ :=
  (resplit text).foldl
    (fun score word =>
      let chars_ords := prepare_word_for_transition_check word
      (List.range (chars_ords.length - 1)).foldl
        (fun s k => s + matrix (chars_ords.getD k 0) (chars_ords.getD (k + 1) 0))
        score)
    0

/-! ### Input acquisition and `main` -/

/-- The `--file` argument as `get_text_to_translate` can observe it: absent
(or Python-falsy), present but unreadable (`IOError`), or readable with the
given contents. -/
inductive FileInput : Type
  | nofile
  | unreadable
  | withContent (s : PyStr)

/-- Python `a or b` on strings: `b` if `a` is empty (falsy), else `a`. -/
def pyOr (a b : PyStr) : PyStr := if a = [] then b else a

/-- `get_text_to_translate(input_text, input_file)`, with the console read
`input(...)` supplied as an explicit value: a readable file replaces
`input_text`; an unreadable file returns `''`; an empty text falls back to
the console. -/
def get_text_to_translate (input_text : PyStr) (input_file : FileInput)
    (console : PyStr) : PyStr :=
  match input_file with
  | FileInput.nofile => pyOr input_text console
  | FileInput.unreadable => []
  | FileInput.withContent s => pyOr s console

/-- The early-return structure of `main`: `if not text: return` before any
scoring; otherwise the dictionary score distribution is computed (the matrix
distribution is computed afterwards as well — `none` models the early return
with no distribution at all). -/
def main_dictionary_result (dict : UnivDict) (input_text : PyStr)
    (input_file : FileInput) (console : PyStr) : Option (List (Lang × ℚ)) :=
  let text := get_text_to_translate input_text input_file console
  if text = [] then none
  else some (compute_scores_with_dictionary dict text)

/-! ### Specification-side definitions used to state the claims -/

/-- Adjacent character pairs of a word, in order (spec §4.3/§4.6). -/
def adjPairs (l : List Nat) : List (Nat × Nat) := l.zip l.tail

/-- The languages whose word list contains `w`, in collection order. -/
def langsContaining (pairs : List (Lang × List PyStr)) (w : PyStr) : List Lang :=
  (pairs.filter (fun p => decide (w ∈ p.2))).map Prod.fst

/-- Pointwise combination describing one merge step on an optional value. -/
def optCombine (a b : Option (List Lang)) : Option (List Lang) :=
  match a, b with
  | a, none => a
  | none, some v => some v
  | some u, some v => some (u ++ v)

/-- Appending a list of languages to an optional accumulated value (absent
stays absent when nothing is appended). -/
def optAppend (o : Option (List Lang)) (ls : List Lang) : Option (List Lang) :=
  if ls = [] then o
  else
    match o with
    | some a => some (a ++ ls)
    | none => some ls

/-- The total dictionary count a token list contributes to one language. -/
def tokenCount (dict : UnivDict) (toks : List PyStr) (l : Lang) : ℚ :=
  (toks.map (fun w => ((langsOf dict w).count l : ℚ))).sum

/-- The matrix score one token contributes: the sum of `matrix[c1][c2]` over
the token's adjacent code pairs. -/
def wordMatrixScore (matrix : Nat → Nat → ℚ) (word : PyStr) : ℚ :=
  ((adjPairs (prepare_word_for_transition_check word)).map
    (fun p => matrix p.1 p.2)).sum

/-! ### Concrete fixtures used by the end-to-end claims -/

/-- A concrete all-ones transition matrix, used to instantiate universally
quantified matrix arguments. -/
def oneMatrix : Nat → Nat → ℚ := fun _ _ => 1

/-- A concrete two-language collection (`fr: ["le"]`, `en: ["the"]`). -/
def exPairs : List (Lang × List PyStr) :=
  [(Lang.fr, [[108, 101]]), (Lang.en, [[116, 104, 101]])]

/-- The dictionary universe of spec §8: `{"le": {French}, "the": {English},
"el": {Spanish}}` (`"le" = [108,101]`, `"the" = [116,104,101]`,
`"el" = [101,108]`). -/
def exDict : UnivDict :=
  [([108, 101], [Lang.fr]), ([116, 104, 101], [Lang.en]), ([101, 108], [Lang.es])]

/-- The input text `"le the"` of spec §8. -/
def exText : PyStr := [108, 101, 32, 116, 104, 101]

/-- Raw dictionary counts for the §8 example. -/
def exScores : List (Lang × ℚ) :=
  [(Lang.unknown, 0), (Lang.fr, 1), (Lang.en, 1), (Lang.es, 0)]

/-! ### Helper lemmas: association-list dictionaries -/

theorem dictLookup_eq_none {α β : Type} [DecidableEq α] (d : List (α × β)) (w : α)
    (h : w ∉ dictKeys d) : dictLookup d w = none := by
  induction d with
  | nil => rfl
  | cons p d ih =>
    simp only [dictKeys, List.map_cons, List.mem_cons, not_or] at h
    simp only [dictLookup, if_neg h.1, ih (by simpa [dictKeys] using h.2)]

theorem dictLookup_dictSet {α β : Type} [DecidableEq α] (d : List (α × β))
    (k : α) (v : β) (w : α) :
    dictLookup (dictSet d k v) w = if w = k then some v else dictLookup d w := by
  induction d with
  | nil => simp [dictSet, dictLookup]
  | cons p d ih =>
    by_cases hpk : p.1 = k
    · subst hpk
      by_cases hwk : w = p.1 <;> simp [dictSet, dictLookup, hwk]
    · by_cases hwp : w = p.1
      · subst hwp
        simp [dictSet, dictLookup, hpk, Ne.symm hpk]
      · simp [dictSet, dictLookup, hpk, hwp, ih]

theorem dictLookup_dictInsertAdd (d : UnivDict) (k : PyStr) (v : List Lang)
    (w : PyStr) :
    dictLookup (dictInsertAdd d k v) w =
      if w = k then some ((dictLookup d k).getD [] ++ v) else dictLookup d w := by
  induction d with
  | nil => simp [dictInsertAdd, dictLookup]
  | cons p d ih =>
    by_cases hpk : p.1 = k
    · subst hpk
      by_cases hwk : w = p.1 <;> simp [dictInsertAdd, dictLookup, hwk]
    · by_cases hwp : w = p.1
      · subst hwp
        simp [dictInsertAdd, dictLookup, hpk, Ne.symm hpk]
      · simp [dictInsertAdd, dictLookup, hpk, hwp, ih, Ne.symm hpk]

theorem dictKeys_dictSet {α β : Type} [DecidableEq α] (d : List (α × β))
    (k : α) (v : β) :
    dictKeys (dictSet d k v) =
      if k ∈ dictKeys d then dictKeys d else dictKeys d ++ [k] := by
  induction d with
  | nil => simp [dictSet, dictKeys]
  | cons p d ih =>
    by_cases hpk : p.1 = k
    · subst hpk
      simp [dictSet, dictKeys]
    · have hs : dictSet (p :: d) k v = p :: dictSet d k v := by simp [dictSet, hpk]
      rw [hs]
      simp only [dictKeys, List.map_cons] at ih ⊢
      rw [ih]
      by_cases hk : k ∈ d.map Prod.fst
      · simp [hk, Ne.symm hpk]
      · simp [hk, Ne.symm hpk]

theorem dictKeys_dictInsertAdd (d : UnivDict) (k : PyStr) (v : List Lang) :
    dictKeys (dictInsertAdd d k v) =
      if k ∈ dictKeys d then dictKeys d else dictKeys d ++ [k] := by
  induction d with
  | nil => simp [dictInsertAdd, dictKeys]
  | cons p d ih =>
    by_cases hpk : p.1 = k
    · subst hpk
      simp [dictInsertAdd, dictKeys]
    · have hs : dictInsertAdd (p :: d) k v = p :: dictInsertAdd d k v := by
        simp [dictInsertAdd, hpk]
      rw [hs]
      simp only [dictKeys, List.map_cons] at ih ⊢
      rw [ih]
      by_cases hk : k ∈ d.map Prod.fst
      · simp [hk, Ne.symm hpk]
      · simp [hk, Ne.symm hpk]

theorem dictKeys_nodup_dictSet {α β : Type} [DecidableEq α] (d : List (α × β))
    (k : α) (v : β) (h : (dictKeys d).Nodup) : (dictKeys (dictSet d k v)).Nodup := by
  rw [dictKeys_dictSet]
  split_ifs with hmem
  · exact h
  · simpa [List.nodup_append] using ⟨h, hmem⟩

theorem dictKeys_nodup_dictInsertAdd (d : UnivDict) (k : PyStr) (v : List Lang)
    (h : (dictKeys d).Nodup) : (dictKeys (dictInsertAdd d k v)).Nodup := by
  rw [dictKeys_dictInsertAdd]
  split_ifs with hmem
  · exact h
  · simpa [List.nodup_append] using ⟨h, hmem⟩

theorem optCombine_none (o : Option (List Lang)) : optCombine o none = o := by
  cases o <;> rfl

theorem optAppend_nil (o : Option (List Lang)) : optAppend o [] = o := by
  simp [optAppend]

theorem optAppend_optCombine_single (o : Option (List Lang)) (l : Lang)
    (ls : List Lang) : optAppend (optCombine o (some [l])) ls = optAppend o (l :: ls) := by
  cases o <;> cases ls <;> simp [optAppend, optCombine]

theorem langDict_fold_lookup (l : Lang) (words : List PyStr) (acc : UnivDict)
    (w : PyStr) :
    dictLookup (words.foldl (fun d u => dictSet d u [l]) acc) w =
      if w ∈ words then some [l] else dictLookup acc w := by
  induction words generalizing acc with
  | nil => simp
  | cons u rest ih =>
    rw [List.foldl_cons, ih]
    by_cases hr : w ∈ rest
    · simp [hr]
    · rw [dictLookup_dictSet]
      by_cases hu : w = u
      · simp [hu, hr]
      · simp [hu, hr]

theorem langDict_lookup (words : List PyStr) (l : Lang) (w : PyStr) :
    dictLookup (load_language_dictionary words l) w =
      if w ∈ words then some [l] else none := by
  rw [load_language_dictionary, langDict_fold_lookup]
  rfl

theorem langDict_keys_nodup (words : List PyStr) (l : Lang) :
    (dictKeys (load_language_dictionary words l)).Nodup := by
  rw [load_language_dictionary]
  have h : ∀ (ws : List PyStr) (acc : UnivDict), (dictKeys acc).Nodup →
      (dictKeys (ws.foldl (fun d u => dictSet d u [l]) acc)).Nodup := by
    intro ws
    induction ws with
    | nil => intro acc h; exact h
    | cons u rest ih =>
      intro acc hacc
      exact ih _ (dictKeys_nodup_dictSet _ _ _ hacc)
  exact h words [] (by simp [dictKeys])

theorem dictLookup_mergeDict (acc dct : UnivDict) (w : PyStr)
    (h : (dictKeys dct).Nodup) :
    dictLookup (mergeDict acc dct) w =
      optCombine (dictLookup acc w) (dictLookup dct w) := by
  induction dct generalizing acc with
  | nil => simp [mergeDict, dictLookup, optCombine_none]
  | cons p rest ih =>
    simp only [dictKeys, List.map_cons, List.nodup_cons] at h
    have hnotin : p.1 ∉ dictKeys rest := h.1
    have hrest : (dictKeys rest).Nodup := h.2
    have hstep : mergeDict acc (p :: rest) = mergeDict (dictInsertAdd acc p.1 p.2) rest := rfl
    rw [hstep, ih _ hrest, dictLookup_dictInsertAdd]
    by_cases hw : w = p.1
    · subst hw
      rw [dictLookup_eq_none rest p.1 hnotin]
      cases hacc : dictLookup acc p.1 <;> simp [optCombine, dictLookup]
    · simp [hw, dictLookup]

theorem langsContaining_cons (q : Lang × List PyStr)
    (rest : List (Lang × List PyStr)) (w : PyStr) :
    langsContaining (q :: rest) w =
      if w ∈ q.2 then q.1 :: langsContaining rest w else langsContaining rest w := by
  by_cases h : w ∈ q.2 <;> simp [langsContaining, List.filter_cons, h]

theorem univFold_lookup (pairs : List (Lang × List PyStr)) (acc : UnivDict)
    (w : PyStr) :
    dictLookup
        ((pairs.map (fun p => load_language_dictionary p.2 p.1)).foldl mergeDict acc) w =
      optAppend (dictLookup acc w) (langsContaining pairs w) := by
  induction pairs generalizing acc with
  | nil => simp [langsContaining, optAppend_nil]
  | cons q rest ih =>
    rw [List.map_cons, List.foldl_cons, ih,
      dictLookup_mergeDict _ _ _ (langDict_keys_nodup q.2 q.1),
      langDict_lookup, langsContaining_cons]
    by_cases hq : w ∈ q.2
    · simp only [if_pos hq, optAppend_optCombine_single]
    · simp only [if_neg hq, optCombine_none]

theorem univLookup (pairs : List (Lang × List PyStr)) (w : PyStr) :
    dictLookup (load_universal_dictionary pairs) w =
      if langsContaining pairs w = [] then none
      else some (langsContaining pairs w) := by
  rw [load_universal_dictionary, univFold_lookup]
  cases h : langsContaining pairs w <;> simp [optAppend, dictLookup]

theorem mergeDict_keys_nodup (acc dct : UnivDict) (h : (dictKeys acc).Nodup) :
    (dictKeys (mergeDict acc dct)).Nodup := by
  induction dct generalizing acc with
  | nil => exact h
  | cons p rest ih => exact ih _ (dictKeys_nodup_dictInsertAdd _ _ _ h)

theorem univ_keys_nodup (pairs : List (Lang × List PyStr)) :
    (dictKeys (load_universal_dictionary pairs)).Nodup := by
  rw [load_universal_dictionary]
  have h : ∀ (ds : List UnivDict) (acc : UnivDict), (dictKeys acc).Nodup →
      (dictKeys (ds.foldl mergeDict acc)).Nodup := by
    intro ds
    induction ds with
    | nil => intro acc h; exact h
    | cons d rest ih => intro acc hacc; exact ih _ (mergeDict_keys_nodup _ _ hacc)
  exact h _ [] (by simp [dictKeys])

/-! ### Helper lemmas: score counting -/

theorem foldl_incr (ls : List Lang) (sc : List (Lang × ℚ)) :
    ls.foldl incr sc = sc.map (fun p => (p.1, p.2 + (ls.count p.1 : ℚ))) := by
  induction ls generalizing sc with
  | nil => simp
  | cons l ls ih =>
    rw [List.foldl_cons, ih, incr, List.map_map]
    apply List.map_congr_left
    intro p _
    by_cases h : p.1 = l
    · simp only [Function.comp, h, if_pos rfl, List.count_cons, beq_self_eq_true, if_true,
        Prod.mk.injEq]
      exact ⟨trivial, by push_cast; ring⟩
    · simp only [Function.comp, if_neg h, List.count_cons, Prod.mk.injEq, true_and]
      have hbeq : (l == p.1) = false := by
        simpa using fun hc => h hc.symm
      simp [hbeq]

theorem scores_fold_eq (dict : UnivDict) (toks : List PyStr)
    (sc : List (Lang × ℚ)) :
    toks.foldl (fun scores word => (langsOf dict word).foldl incr scores) sc =
      sc.map (fun p => (p.1, p.2 + tokenCount dict toks p.1)) := by
  induction toks generalizing sc with
  | nil => simp [tokenCount]
  | cons t toks ih =>
    rw [List.foldl_cons, ih, foldl_incr, List.map_map]
    apply List.map_congr_left
    intro p _
    simp only [Function.comp, tokenCount, List.map_cons, List.sum_cons, Prod.mk.injEq, true_and]
    ring

theorem scoresFromTokens_eq (dict : UnivDict) (toks : List PyStr) :
    scoresFromTokens dict toks = ALL_LANGS.map (fun l => (l, tokenCount dict toks l)) := by
  rw [scoresFromTokens, scores_fold_eq, scoresInit, List.map_map]
  apply List.map_congr_left
  intro l _
  simp [Function.comp]

/-! ### Helper lemmas: matrix scoring -/

theorem range_getD_adjPairs (l : List Nat) :
    (List.range (l.length - 1)).map (fun k => (l.getD k 0, l.getD (k + 1) 0)) =
      adjPairs l := by
  induction l with
  | nil => simp [adjPairs]
  | cons a t ih =>
    cases t with
    | nil => simp [adjPairs]
    | cons b r =>
      have hlen : (a :: b :: r).length - 1 = r.length + 1 := by simp
      rw [hlen, List.range_succ_eq_map, List.map_cons, List.map_map]
      have htail :
          (List.range r.length).map
              ((fun k => ((a :: b :: r).getD k 0, (a :: b :: r).getD (k + 1) 0)) ∘ Nat.succ) =
            (List.range ((b :: r).length - 1)).map
              (fun k => ((b :: r).getD k 0, (b :: r).getD (k + 1) 0)) := by
        have hlr : (b :: r).length - 1 = r.length := by simp
        rw [hlr]
        apply List.map_congr_left
        intro k _
        simp [Function.comp]
      rw [htail, ih]
      rfl

theorem foldl_add_sum {α : Type} (f : α → ℚ) (l : List α) (c : ℚ) :
    l.foldl (fun s x => s + f x) c = c + (l.map f).sum := by
  induction l generalizing c with
  | nil => simp
  | cons x xs ih => simp [ih, add_assoc]

theorem inner_matrix_fold (matrix : Nat → Nat → ℚ) (word : PyStr) (c : ℚ) :
    (List.range ((prepare_word_for_transition_check word).length - 1)).foldl
        (fun s k =>
          s + matrix ((prepare_word_for_transition_check word).getD k 0)
            ((prepare_word_for_transition_check word).getD (k + 1) 0)) c =
      c + wordMatrixScore matrix word := by
  rw [foldl_add_sum (fun k =>
    matrix ((prepare_word_for_transition_check word).getD k 0)
      ((prepare_word_for_transition_check word).getD (k + 1) 0))]
  rw [wordMatrixScore]
  rw [← range_getD_adjPairs (prepare_word_for_transition_check word), List.map_map]
  rfl

theorem compute_score_matrix_eq (text : PyStr) (matrix : Nat → Nat → ℚ) :
    compute_score_matrix text matrix =
      ((resplit text).map (wordMatrixScore matrix)).sum := by
  rw [compute_score_matrix]
  rw [List.foldl_ext _ (fun score word => score + wordMatrixScore matrix word) 0
    (fun c w _ => inner_matrix_fold matrix w c)]
  rw [foldl_add_sum (wordMatrixScore matrix)]
  rw [zero_add]

/-! ### Helper lemmas: normalisation -/

theorem sum_map_div (l : List ℚ) (t : ℚ) :
    (l.map (fun x => x / t)).sum = l.sum / t := by
  induction l with
  | nil => simp
  | cons x xs ih => simp [ih, add_div]

theorem scoresTotal_map_div (scores : List (Lang × ℚ)) (t : ℚ) :
    scoresTotal (scores.map (fun p => (p.1, p.2 / t))) = scoresTotal scores / t := by
  rw [scoresTotal, scoresTotal, List.map_map, ← sum_map_div (scores.map Prod.snd) t,
    List.map_map]
  rfl

theorem sum_eq_zero_of_nonneg (l : List ℚ) (hn : ∀ x ∈ l, 0 ≤ x)
    (hz : l.sum = 0) : ∀ x ∈ l, x = 0 := by
  induction l with
  | nil => simp
  | cons x xs ih =>
    have hx : 0 ≤ x := hn x (by simp)
    have hxs : ∀ y ∈ xs, 0 ≤ y := fun y hy => hn y (by simp [hy])
    have hsum : 0 ≤ xs.sum := List.sum_nonneg hxs
    rw [List.sum_cons] at hz
    have hx0 : x = 0 := by linarith
    have hxs0 : xs.sum = 0 := by linarith
    intro y hy
    rcases List.mem_cons.mp hy with h | h
    · rw [h, hx0]
    · exact ih hxs hxs0 y h

theorem map_pair_eta (l : List (Lang × ℚ)) : l.map (fun p => (p.1, p.2)) = l := by
  induction l with
  | nil => rfl
  | cons p rest ih => simp [ih]

theorem normalise_of_total_pos (scores : List (Lang × ℚ))
    (h : 0 < scoresTotal scores) :
    normalise_scores scores = scores.map (fun p => (p.1, p.2 / scoresTotal scores)) := by
  rw [normalise_scores, if_pos h]

theorem normalise_of_total_not_pos (scores : List (Lang × ℚ))
    (h : ¬ 0 < scoresTotal scores) : normalise_scores scores = scores := by
  rw [normalise_scores, if_neg h]

theorem scoresTotal_normalise_of_pos (scores : List (Lang × ℚ))
    (h : 0 < scoresTotal scores) : scoresTotal (normalise_scores scores) = 1 := by
  rw [normalise_of_total_pos scores h, scoresTotal_map_div,
    div_self (ne_of_gt h)]

/-! ### Helper lemmas: tokenization and the word-list loader -/

theorem resplit_state_head (s : PyStr) :
    (s.foldr resplitStep ([[]], false)).2 = true →
    (s.foldr resplitStep ([[]], false)).1.head? = some [] := by
  induction s with
  | nil => intro h; simp at h
  | cons c cs ih =>
    intro h
    rw [List.foldr_cons] at h ⊢
    by_cases hsp : isSpace c
    · rw [resplitStep, if_pos hsp] at h ⊢
      cases hb : (cs.foldr resplitStep ([[]], false)).2
      · simp [hb]
      · simpa [hb] using ih hb
    · rw [resplitStep, if_neg hsp] at h
      cases hst : (cs.foldr resplitStep ([[]], false)).1 <;> simp [hst] at h

theorem resplit_cons_space_head (c : Nat) (cs : PyStr) (h : isSpace c = true) :
    (resplit (c :: cs)).head? = some [] := by
  rw [resplit, List.foldr_cons, resplitStep, if_pos h]
  cases hb : (cs.foldr resplitStep ([[]], false)).2
  · simp [hb]
  · simpa [hb] using resplit_state_head cs hb

theorem unknown_score_lookup (dict : UnivDict) (toks : List PyStr) :
    dictLookup (scoresFromTokens dict toks) Lang.unknown =
      some (tokenCount dict toks Lang.unknown) := by
  rw [scoresFromTokens_eq]
  simp [ALL_LANGS, dictLookup]

theorem langsContaining_eq_nil_iff (pairs : List (Lang × List PyStr)) (w : PyStr) :
    langsContaining pairs w = [] ↔ ∀ p ∈ pairs, w ∉ p.2 := by
  simp [langsContaining, List.filter_eq_nil_iff]

theorem langsContaining_mem (pairs : List (Lang × List PyStr)) (w : PyStr)
    (l : Lang) : l ∈ langsContaining pairs w ↔ ∃ p ∈ pairs, p.1 = l ∧ w ∈ p.2 := by
  simp only [langsContaining, List.mem_map, List.mem_filter, decide_eq_true_eq]
  constructor
  · rintro ⟨p, ⟨hp, hw⟩, rfl⟩
    exact ⟨p, hp, rfl, hw⟩
  · rintro ⟨p, hp, rfl, hw⟩
    exact ⟨p, ⟨hp, hw⟩, rfl⟩

theorem langsContaining_nodup (pairs : List (Lang × List PyStr)) (w : PyStr)
    (h : (pairs.map Prod.fst).Nodup) : (langsContaining pairs w).Nodup := by
  have hs : List.Sublist (langsContaining pairs w) (pairs.map Prod.fst) :=
    (List.filter_sublist pairs).map Prod.fst
  exact h.sublist hs

theorem pyLower_no_upper (c : Nat) : ¬(65 ≤ pyLower c ∧ pyLower c ≤ 90) := by
  rw [pyLower]
  split_ifs with h <;> omega

theorem pyLower_eq_ten (c : Nat) (h : pyLower c = 10) : c = 10 := by
  rw [pyLower] at h
  split_ifs at h with h2 <;> omega

theorem getLast?_dropWhile (p : Nat → Bool) (l : List Nat)
    (h : l.dropWhile p ≠ []) : (l.dropWhile p).getLast? = l.getLast? := by
  induction l with
  | nil => exact absurd rfl h
  | cons a t ih =>
    by_cases hp : p a
    · rw [List.dropWhile_cons_of_pos hp] at h ⊢
      rw [ih h]
      cases t with
      | nil => rw [List.dropWhile_nil] at h; exact absurd rfl h
      | cons b r => rw [List.getLast?_cons_cons]
    · rw [List.dropWhile_cons_of_neg hp]

theorem head?_dropWhile_ne (p : Nat → Bool) (l : List Nat) (x : Nat)
    (hx : (l.dropWhile p).head? = some x) : p x = false := by
  have h := List.head?_dropWhile_not p l
  rw [hx] at h
  exact h

theorem pyStripNL_head_ne_ten (w : PyStr) : (pyStripNL w).head? ≠ some 10 := by
  rw [pyStripNL, dropTrailingNL]
  intro hc
  by_cases hnil : (w.dropWhile (fun c => c == 10)).reverse.dropWhile (fun c => c == 10) = []
  · rw [hnil] at hc
    simp at hc
  · rw [List.head?_reverse, getLast?_dropWhile _ _ hnil, List.getLast?_reverse] at hc
    have := head?_dropWhile_ne (fun c => c == 10) w 10 hc
    simp at this

theorem pyStripNL_getLast_ne_ten (w : PyStr) : (pyStripNL w).getLast? ≠ some 10 := by
  rw [pyStripNL, dropTrailingNL]
  intro hc
  rw [List.getLast?_reverse] at hc
  have := head?_dropWhile_ne (fun c => c == 10) _ 10 hc
  simp at this

theorem getLast?_map_pyLower (l : List Nat) :
    (l.map pyLower).getLast? = l.getLast?.map pyLower := by
  rw [← List.head?_reverse, ← List.map_reverse, List.head?_map, List.head?_reverse]

theorem filterMap_enumFrom_pos (f : PyStr → PyStr) (rest : List PyStr) :
    ∀ n : Nat, 0 < n →
      (rest.enumFrom n).filterMap
        (fun p => if p.1 > 0 then some (f p.2) else none) = rest.map f := by
  induction rest with
  | nil => intro n _; rfl
  | cons b bs ih =>
    intro n hn
    have h1 : (if n > 0 then some (f b) else none) = some (f b) := if_pos hn
    rw [List.enumFrom_cons, List.filterMap_cons, h1, ih (n + 1) (by omega),
      List.map_cons]

theorem load_words_from_lines_cons (a : PyStr) (rest : List PyStr) :
    load_words_from_lines (a :: rest) =
      rest.map (fun w => (pyStripNL w).map pyLower) := by
  rw [load_words_from_lines, List.enum_cons, List.filterMap_cons]
  have h0 : (if (0 : Nat) > 0 then some ((pyStripNL a).map pyLower) else none) = none :=
    if_neg (by omega)
  rw [h0]
  show List.filterMap (fun p => if p.1 > 0 then some ((pyStripNL p.2).map pyLower) else none)
      (List.enumFrom 1 rest) = rest.map (fun w => (pyStripNL w).map pyLower)
  exact filterMap_enumFrom_pos (fun w => (pyStripNL w).map pyLower) rest 1 (by omega)

/-! ### Claim theorems -/

/-- C1 (code evaluation at the failing input): `load_transition_matrice`
divides the count matrix by `total_transitions` unconditionally.  For a word
list whose only word is `"a"` (one character, hence zero transitions) every
cell of the returned matrix is NaN (`0.0/0`), not `0`, contradicting the
claim that the matrix stays all-zero via an explicit zero-total branch. -/
theorem c1_matrix_all_nan_when_no_transitions :
    ∀ i j : Nat, load_transition_matrice [[97]] i j = FloatVal.nan := by
  intro i j
  rfl

/-- C2 (counterexample): an input text consisting of a single space
(`" " = [32]`) is a non-empty Python string, hence truthy; `main` does not
return early and a full score distribution is computed (the two empty tokens
both score as Unknown), contradicting the claimed EmptyInput short-circuit
for whitespace-only input. -/
theorem c2_counterexample_whitespace_scores :
    main_dictionary_result [] [32] FileInput.nofile [] =
      some [(Lang.unknown, 1), (Lang.fr, 0), (Lang.en, 0), (Lang.es, 0)] := by
  simp [main_dictionary_result, get_text_to_translate, pyOr,
    compute_scores_with_dictionary, scoresFromTokens, scoresInit, ALL_LANGS,
    langsOf, incr, dictLookup, resplit, resplitStep, isSpace, pyLower,
    normalise_scores, scoresTotal]

/-- C2 (amended): the early return of `main` happens exactly when the text
obtained by `get_text_to_translate` is the empty string; a whitespace-only
text such as `" "` is non-empty, so a distribution is computed for it. -/
theorem c2_amended_early_return_iff_empty :
    ∀ (dict : UnivDict) (input_text : PyStr) (input_file : FileInput)
      (console : PyStr),
      (main_dictionary_result dict input_text input_file console = none ↔
        get_text_to_translate input_text input_file console = []) ∧
      main_dictionary_result dict [32] FileInput.nofile console ≠ none := by
  intro dict it ifile console
  constructor
  · rw [main_dictionary_result]
    by_cases h : get_text_to_translate it ifile console = [] <;> simp [h]
  · rw [main_dictionary_result]
    simp [get_text_to_translate, pyOr]

/-- C4: `normalise_scores` on a distribution with non-negative values: with a
positive total it divides every value by the total and the result sums to 1;
with a zero total it is the identity and every entry is already exactly 0. -/
theorem c4_normalise_scores_correct :
    ∀ scores : List (Lang × ℚ), (∀ p ∈ scores, 0 ≤ p.2) →
      (0 < scoresTotal scores →
        normalise_scores scores =
          scores.map (fun p => (p.1, p.2 / scoresTotal scores)) ∧
        scoresTotal (normalise_scores scores) = 1) ∧
      (scoresTotal scores = 0 →
        normalise_scores scores = scores ∧ ∀ p ∈ scores, p.2 = 0) := by
  intro scores hn
  constructor
  · intro hpos
    exact ⟨normalise_of_total_pos scores hpos,
      scoresTotal_normalise_of_pos scores hpos⟩
  · intro hz
    refine ⟨normalise_of_total_not_pos scores (by rw [hz]; exact lt_irrefl 0), ?_⟩
    intro p hp
    have hmem : p.2 ∈ scores.map Prod.snd := List.mem_map_of_mem Prod.snd hp
    have hnn : ∀ x ∈ scores.map Prod.snd, 0 ≤ x := by
      intro x hx
      obtain ⟨q, hq, rfl⟩ := List.mem_map.mp hx
      exact hn q hq
    exact sum_eq_zero_of_nonneg (scores.map Prod.snd) hnn hz p.2 hmem

/-- C4 witness: the §8 raw counts `[(Unknown,0),(FR,1),(EN,1),(ES,0)]` have
positive total; normalisation divides by the total and the result sums to 1. -/
theorem c4_normalise_scores_correct_witness :
    normalise_scores exScores =
      exScores.map (fun p => (p.1, p.2 / scoresTotal exScores)) ∧
    scoresTotal (normalise_scores exScores) = 1 :=
  (c4_normalise_scores_correct exScores (by simp [exScores])).1
    (by simp [exScores, scoresTotal])

/-- C10: `normalise_scores` is idempotent on distributions with non-negative
values (after one normalisation the total is 1 or the call was a no-op, so a
second call divides by 1 or is again a no-op). -/
theorem c10_normalise_idempotent :
    ∀ scores : List (Lang × ℚ), (∀ p ∈ scores, 0 ≤ p.2) →
      normalise_scores (normalise_scores scores) = normalise_scores scores := by
  intro scores _hn
  by_cases h : 0 < scoresTotal scores
  · rw [normalise_of_total_pos scores h]
    have h1 : scoresTotal (scores.map (fun p => (p.1, p.2 / scoresTotal scores))) = 1 := by
      rw [scoresTotal_map_div, div_self (ne_of_gt h)]
    rw [normalise_of_total_pos _ (by rw [h1]; exact one_pos), h1]
    simp only [div_one]
    exact map_pair_eta _
  · rw [normalise_of_total_not_pos scores h, normalise_of_total_not_pos scores h]

/-- C10 witness: normalising the §8 raw counts twice equals normalising once. -/
theorem c10_normalise_idempotent_witness :
    normalise_scores (normalise_scores exScores) = normalise_scores exScores :=
  c10_normalise_idempotent exScores (by simp [exScores])

/-- C8: `compute_score_matrix` is the sum, over the whitespace tokens of the
text and over each adjacent pair of capped character codes within a token
(pairs never cross token boundaries), of the corresponding matrix cell; a
token of length 0 or 1 has no adjacent pair and contributes nothing. -/
theorem c8_matrix_score_is_pair_sum :
    ∀ (text : PyStr) (matrix : Nat → Nat → ℚ),
      compute_score_matrix text matrix =
        ((resplit text).map (wordMatrixScore matrix)).sum ∧
      ∀ word : PyStr, word.length ≤ 1 → wordMatrixScore matrix word = 0 := by
  intro text matrix
  refine ⟨compute_score_matrix_eq text matrix, ?_⟩
  intro word hlen
  match word, hlen with
  | [], _ => rfl
  | [c], _ => rfl

/-- C8 witness: at the §8 text and the all-ones matrix, the score is the
pair-count 3 (`"le"` has one transition, `"the"` has two), and a
single-character token contributes 0. -/
theorem c8_matrix_score_is_pair_sum_witness :
    compute_score_matrix exText oneMatrix =
      ((resplit exText).map (wordMatrixScore oneMatrix)).sum ∧
    wordMatrixScore oneMatrix [97] = 0 :=
  ⟨(c8_matrix_score_is_pair_sum exText oneMatrix).1,
    (c8_matrix_score_is_pair_sum exText oneMatrix).2 [97] (by decide)⟩

/-- C5: the dictionary scorer adds, for every token, 1 to each language in
`dict.get(token.lower(), [Unknown])` — i.e. to each language of the token's
lowercased membership set when found, and to Unknown when not found; on the
§8 universe and the text `"le the"` the raw counts are
`{Unknown: 0, FR: 1, EN: 1, ES: 0}` and the normalised distribution is
`{Unknown: 0, FR: 1/2, EN: 1/2, ES: 0}`. -/
theorem c5_dictionary_scores :
    (∀ (dict : UnivDict) (text : PyStr),
        scoresFromTokens dict (resplit text) =
          ALL_LANGS.map (fun l => (l, tokenCount dict (resplit text) l))) ∧
    scoresFromTokens exDict (resplit exText) = exScores ∧
    compute_scores_with_dictionary exDict exText =
      [(Lang.unknown, 0), (Lang.fr, 1 / 2), (Lang.en, 1 / 2), (Lang.es, 0)] := by
  refine ⟨fun dict text => scoresFromTokens_eq dict (resplit text), ?_, ?_⟩
  · simp [scoresFromTokens, scoresInit, ALL_LANGS, langsOf, incr, dictLookup,
      resplit, resplitStep, isSpace, exDict, exText, exScores, pyLower]
  · simp [compute_scores_with_dictionary, scoresFromTokens, scoresInit, ALL_LANGS,
      langsOf, incr, dictLookup, resplit, resplitStep, isSpace, exDict, exText,
      pyLower, normalise_scores, scoresTotal]
    norm_num

/-- C6 (counterexample): the text `" le"` tokenizes to `["", "le"]`; the
empty token produced by the leading separator is looked up like any other
token, is not found, and increments Unknown to 1 — it is not skipped, so the
claimed "empty tokens never increment the Unknown bucket" is false. -/
theorem c6_counterexample_empty_token_scores_unknown :
    resplit [32, 108, 101] = [[], [108, 101]] ∧
    scoresFromTokens [([108, 101], [Lang.fr])] (resplit [32, 108, 101]) =
      [(Lang.unknown, 1), (Lang.fr, 1), (Lang.en, 0), (Lang.es, 0)] := by
  constructor
  · decide
  · simp [scoresFromTokens, scoresInit, ALL_LANGS, langsOf, incr, dictLookup,
      resplit, resplitStep, isSpace, pyLower]

/-- C6 (amended): a leading whitespace separator does produce an empty token;
the dictionary scorer does not skip it — when the empty string is not a
dictionary key the empty token adds exactly 1 to the Unknown score; in the
matrix scorer an empty token has no adjacent pair, so a whitespace-only text
scores 0. -/
theorem c6_amended_empty_tokens_not_skipped :
    ∀ (dict : UnivDict) (toks : List PyStr) (matrix : Nat → Nat → ℚ)
      (c : Nat) (cs : PyStr),
      dictLookup dict ([] : PyStr) = none → isSpace c = true →
      ((resplit (c :: cs)).head? = some [] ∧
       dictLookup (scoresFromTokens dict ([] :: toks)) Lang.unknown =
         some (tokenCount dict toks Lang.unknown + 1) ∧
       compute_score_matrix [32] matrix = 0) := by
  intro dict toks matrix c cs hnone hsp
  refine ⟨resplit_cons_space_head c cs hsp, ?_, ?_⟩
  · rw [unknown_score_lookup]
    congr 1
    have hl : langsOf dict [] = [Lang.unknown] := by
      rw [langsOf]
      simp [hnone]
    rw [tokenCount, List.map_cons, List.sum_cons, hl]
    simp [tokenCount]
    ring
  · rfl

/-- C6 witness: with the empty dictionary, prepending an empty token raises
the Unknown score by exactly 1. -/
theorem c6_amended_empty_tokens_not_skipped_witness :
    dictLookup (scoresFromTokens [] ([[]] : List PyStr)) Lang.unknown =
      some (tokenCount [] ([] : List PyStr) Lang.unknown + 1) :=
  (c6_amended_empty_tokens_not_skipped [] [] oneMatrix 32 [] rfl rfl).2.1

/-- C3: for pairwise-distinct languages, the universal dictionary has no
duplicate key; a word is absent exactly when no language's list contains it,
and when present its value lists exactly the languages whose list contains
it, each at most once (so a word in exactly one list gets a singleton). -/
theorem c3_universal_dictionary_invariant :
    ∀ (pairs : List (Lang × List PyStr)), (pairs.map Prod.fst).Nodup →
      ∀ w : PyStr,
        (dictKeys (load_universal_dictionary pairs)).Nodup ∧
        (dictLookup (load_universal_dictionary pairs) w = none ↔
          ∀ p ∈ pairs, w ∉ p.2) ∧
        ∀ v, dictLookup (load_universal_dictionary pairs) w = some v →
          v ≠ [] ∧ v.Nodup ∧ ∀ l : Lang, l ∈ v ↔ ∃ p ∈ pairs, p.1 = l ∧ w ∈ p.2 := by
  intro pairs hnd w
  refine ⟨univ_keys_nodup pairs, ?_, ?_⟩
  · rw [univLookup]
    by_cases hc : langsContaining pairs w = []
    · simp only [if_pos hc]
      constructor
      · intro _
        exact (langsContaining_eq_nil_iff pairs w).mp hc
      · intro _
        trivial
    · simp only [if_neg hc]
      constructor
      · intro h
        exact absurd h (by simp)
      · intro h
        exact absurd ((langsContaining_eq_nil_iff pairs w).mpr h) hc
  · intro v hv
    rw [univLookup] at hv
    by_cases hc : langsContaining pairs w = []
    · rw [if_pos hc] at hv
      exact absurd hv (by simp)
    · rw [if_neg hc] at hv
      have hv2 : langsContaining pairs w = v := Option.some.inj hv
      subst hv2
      exact ⟨hc, langsContaining_nodup pairs w hnd,
        fun l => langsContaining_mem pairs w l⟩

/-- C3 witness: at the two-language collection `exPairs`, the languages are
distinct and the absence characterisation holds for the word `"le"`. -/
theorem c3_universal_dictionary_invariant_witness :
    (exPairs.map Prod.fst).Nodup ∧
    (dictLookup (load_universal_dictionary exPairs) [108, 101] = none ↔
      ∀ p ∈ exPairs, [108, 101] ∉ p.2) :=
  ⟨by decide, (c3_universal_dictionary_invariant exPairs (by decide) [108, 101]).2.1⟩

/-- C7 (counterexample): the merge uses Python list `+=` (concatenation), so
merging the same two one-word collections in the two orders yields different
dictionaries — `{"le": [FR, EN]}` versus `{"le": [EN, FR]}` — and the result
of merging is not literally the same. -/
theorem c7_counterexample_merge_order_sensitive :
    load_universal_dictionary [(Lang.fr, [[108, 101]]), (Lang.en, [[108, 101]])] ≠
      load_universal_dictionary [(Lang.en, [[108, 101]]), (Lang.fr, [[108, 101]])] := by
  decide

/-- C7 (amended): merging is order-independent only up to the order within
each word's language list: permuting the collection permutes each word's
value list and preserves which words are present. -/
theorem c7_amended_merge_order_independent_up_to_perm :
    ∀ pairs1 pairs2 : List (Lang × List PyStr), pairs1.Perm pairs2 →
      ∀ w : PyStr,
        (dictLookup (load_universal_dictionary pairs1) w = none ↔
          dictLookup (load_universal_dictionary pairs2) w = none) ∧
        ((dictLookup (load_universal_dictionary pairs1) w).getD []).Perm
          ((dictLookup (load_universal_dictionary pairs2) w).getD []) := by
  intro p1 p2 hperm w
  have hl : (langsContaining p1 w).Perm (langsContaining p2 w) :=
    (hperm.filter _).map Prod.fst
  rw [univLookup, univLookup]
  by_cases h1 : langsContaining p1 w = []
  · have h2 : langsContaining p2 w = [] := by
      have hlen := hl.length_eq
      rw [h1] at hlen
      exact List.length_eq_zero.mp hlen.symm
    simp [h1, h2]
  · have h2 : langsContaining p2 w ≠ [] := by
      intro hc
      have hlen := hl.length_eq
      rw [hc] at hlen
      exact h1 (List.length_eq_zero.mp hlen)
    simp only [if_neg h1, if_neg h2]
    constructor
    · constructor <;> intro h <;> exact absurd h (by simp)
    · simpa using hl

/-- C7 witness: the two orders of the clashing one-word collections are a
permutation of each other, and the two value lists for `"le"` are
permutations (`[FR, EN]` and `[EN, FR]`). -/
theorem c7_amended_merge_order_independent_up_to_perm_witness :
    (([(Lang.fr, [[108, 101]]), (Lang.en, [[108, 101]])] :
        List (Lang × List PyStr)).Perm
      [(Lang.en, [[108, 101]]), (Lang.fr, [[108, 101]])]) ∧
    ((dictLookup (load_universal_dictionary
        [(Lang.fr, [[108, 101]]), (Lang.en, [[108, 101]])]) [108, 101]).getD []).Perm
      ((dictLookup (load_universal_dictionary
        [(Lang.en, [[108, 101]]), (Lang.fr, [[108, 101]])]) [108, 101]).getD []) :=
  ⟨by decide,
    (c7_amended_merge_order_independent_up_to_perm _ _ (by decide) [108, 101]).2⟩

/-- C9 (counterexample): the loader only strips newline characters
(`strip('\n')`), not general whitespace: for the file `"2\n a\n"` the single
loaded word is `" a"`, which begins with a whitespace character. -/
theorem c9_counterexample_whitespace_kept :
    load_words_from_file [50, 10, 32, 97, 10] = [[32, 97]] ∧ isSpace 32 = true := by
  decide

/-- C9 (amended): the loader skips the first (header) line regardless of its
content; every returned word is lowercased (no ASCII uppercase remains) and
has its leading and trailing newline characters stripped — but other
whitespace such as spaces, tabs or carriage returns is preserved. -/
theorem c9_amended_loader :
    ∀ (a b : PyStr) (rest : List PyStr) (content : PyStr),
      load_words_from_lines (a :: rest) = load_words_from_lines (b :: rest) ∧
      ∀ w ∈ load_words_from_file content,
        (∀ c ∈ w, ¬(65 ≤ c ∧ c ≤ 90)) ∧
        w.head? ≠ some 10 ∧ w.getLast? ≠ some 10 := by
  intro a b rest content
  constructor
  · rw [load_words_from_lines_cons, load_words_from_lines_cons]
  · intro w hw
    rw [load_words_from_file] at hw
    cases hlines : pyReadlines content with
    | nil =>
      rw [hlines] at hw
      simp [load_words_from_lines] at hw
    | cons l0 ls =>
      rw [hlines, load_words_from_lines_cons] at hw
      obtain ⟨u, hu, rfl⟩ := List.mem_map.mp hw
      refine ⟨?_, ?_, ?_⟩
      · intro c hc
        obtain ⟨c0, hc0, rfl⟩ := List.mem_map.mp hc
        exact pyLower_no_upper c0
      · rw [List.head?_map]
        intro hcon
        cases hh : (pyStripNL u).head? with
        | none => rw [hh] at hcon; exact Option.noConfusion hcon
        | some a0 =>
          rw [hh] at hcon
          have h10 : pyLower a0 = 10 := Option.some.inj hcon
          exact pyStripNL_head_ne_ten u (by rw [hh, pyLower_eq_ten a0 h10])
      · rw [getLast?_map_pyLower]
        intro hcon
        cases hh : (pyStripNL u).getLast? with
        | none => rw [hh] at hcon; exact Option.noConfusion hcon
        | some a0 =>
          rw [hh] at hcon
          have h10 : pyLower a0 = 10 := Option.some.inj hcon
          exact pyStripNL_getLast_ne_ten u (by rw [hh, pyLower_eq_ten a0 h10])

/-- C9 witness: for the file `"2\nA\n"` the loaded word is `"a"`, which is a
member of the output and satisfies the amended guarantees. -/
theorem c9_amended_loader_witness :
    [97] ∈ load_words_from_file [50, 10, 65, 10] ∧
    ((∀ c ∈ ([97] : PyStr), ¬(65 ≤ c ∧ c ≤ 90)) ∧
      ([97] : PyStr).head? ≠ some 10 ∧ ([97] : PyStr).getLast? ≠ some 10) :=
  ⟨by decide, (c9_amended_loader [] [] [] [50, 10, 65, 10]).2 [97] (by decide)⟩

/-- C2 witness: at the whitespace-only input `" "` the early-return
equivalence holds and a distribution is in fact computed. -/
theorem c2_amended_early_return_iff_empty_witness :
    (main_dictionary_result [] ([32] : PyStr) FileInput.nofile [] = none ↔
      get_text_to_translate [32] FileInput.nofile [] = []) ∧
    main_dictionary_result [] [32] FileInput.nofile [] ≠ none :=
  c2_amended_early_return_iff_empty [] [32] FileInput.nofile []
